import Mathlib

/-!
Shallow embedding of the `slice` repository: the filter core
(`slices::filter::Filter` / `FilterSet`) and the two drivers
(`rowslc` and `colslc` from `src/bin/rowslc/main.rs` and
`src/bin/colslc/main.rs`).

The filter core itself ships as a library crate whose source is not part of
the staged files; its definitions below are modelled from the specification
text (each such definition says so in its doc comment). The two drivers are
embedded from the Rust source directly: input streams are lists of
characters, `BufRead::read_line` chunking is `splitLines`, and writing is
list concatenation.
-/

namespace Slice

/-- Whitespace test used by Rust `str::split_whitespace`
(`char::is_whitespace`), restricted to the ASCII range; characters outside
the ASCII range are not modelled. -/
def isWs (c : Char) : Bool :=
  c = ' ' || c = '\t' || c = '\n' || c = '\x0b' || c = '\x0c' || c = '\r'

/-- ASCII decimal digit test. -/
def isDigit (c : Char) : Bool :=
  '0' ≤ c && c ≤ '9'

/-- Numeric value of a list of decimal digits, most significant first. -/
def natOfDigits (cs : List Char) : Nat :=
  cs.foldl (fun a c => 10 * a + (c.toNat - '0'.toNat)) 0

/-- Modelled from the spec: a bound of a filter expression "must parse as a
positive integer >= 1"; "non-numeric, negative, zero" tokens fail. A valid
bound is a nonempty all-digit token whose value is at least 1. -/
def parsePos (cs : List Char) : Option Nat :=
  if !cs.isEmpty && cs.all isDigit then
    if 1 ≤ natOfDigits cs then some (natOfDigits cs) else none
  else none

/-- Modelled from the spec: in a two-part expression an absent bound means
unbounded (`none`), and a present bound must be a valid positive integer. -/
def parseBound (cs : List Char) : Option (Option Nat) :=
  if cs.isEmpty then some none else (parsePos cs).map some

/-- Modelled from the spec: a `Filter` "represents one normalized,
closed-or-open inclusive range over 1-based positions", with
`lower`/`upper` optional bounds where `none` means unbounded. -/
structure Filter where
  lower : Option Nat
  upper : Option Nat
deriving DecidableEq

/-- Modelled from the spec: construction errors are "a distinct
InvalidFilter kind carrying the offending input token", split into the
ParseError and RangeError kinds of the error taxonomy. -/
inductive FilterError where
  | parseError (token : String)
  | rangeError (token : String)
deriving DecidableEq

/-- Split a character list at every colon, keeping empty chunks (the shape
of the expression grammar: the parts between the colons). -/
def splitColon : List Char → List (List Char)
  | [] => [[]]
  | c :: cs =>
    if c = ':' then [] :: splitColon cs
    else
      match splitColon cs with
      | [] => [[c]]
      | p :: ps => (c :: p) :: ps

/-- Modelled from the spec: the expression grammar of section 4.1. One part
`N` gives the exact range `[N, N]`; two parts give `N:M` (rejected when
`N > M`), `N:`, `:M` or `:` with absent bounds unbounded; anything else
(more colons, bad tokens, the empty string) is a parse error carrying the
offending input. -/
def Filter.fromChars (cs : List Char) : Except FilterError Filter :=
  match splitColon cs with
  | [t] =>
    match parsePos t with
    | some n => .ok ⟨some n, some n⟩
    | none => .error (.parseError (String.mk cs))
  | [a, b] =>
    match parseBound a, parseBound b with
    | some lo, some hi =>
      match lo, hi with
      | some n, some m =>
        if n > m then .error (.rangeError (String.mk cs)) else .ok ⟨some n, some m⟩
      | _, _ => .ok ⟨lo, hi⟩
    | _, _ => .error (.parseError (String.mk cs))
  | _ => .error (.parseError (String.mk cs))

/-- Parsing a filter expression string (Rust `Filter::from_str`). -/
def Filter.fromStr (s : String) : Except FilterError Filter :=
  Filter.fromChars s.data

/-- Modelled from the spec: the range test of one Filter at a 1-based
position, "(lower.is_none() or position >= lower) and (upper.is_none() or
position <= upper)". -/
def Filter.apply (f : Filter) (p : Nat) : Bool :=
  (match f.lower with
   | none => true
   | some l => decide (l ≤ p)) &&
  (match f.upper with
   | none => true
   | some u => decide (p ≤ u))

/-- Modelled from the spec: a `FilterSet` "owns an ordered collection of
Filters". -/
structure FilterSet where
  filters : List Filter
deriving DecidableEq

/-- Modelled from the spec: `new` "takes ownership of the supplied Filters
in the order given; performs no deduplication, merging, or sorting". -/
def FilterSet.new (fs : List Filter) : FilterSet :=
  ⟨fs⟩

/-- Modelled from the spec: `is_empty` is "true iff zero Filters were
supplied". -/
def FilterSet.is_empty (s : FilterSet) : Bool :=
  s.filters.isEmpty

/-- Modelled from the spec: `apply` "returns true iff position falls within
at least one contained Filter inclusive range". -/
def FilterSet.apply (s : FilterSet) (p : Nat) : Bool :=
  s.filters.any (fun f => f.apply p)

/-- Chunks produced by repeated `BufRead::read_line` calls on a character
stream: each chunk ends with a newline, except possibly the last. -/
def splitLines : List Char → List (List Char)
  | [] => []
  | c :: cs =>
    if c = '\n' then ['\n'] :: splitLines cs
    else
      match splitLines cs with
      | [] => [[c]]
      | l :: ls => (c :: l) :: ls

/-- Body of the read loop of `RowSlicer::slice` (rowslc main.rs): `index`
starts at 0 and each line is written iff the set is empty or the set
applies at `1 + index`. -/
def rowSliceAux (fs : FilterSet) : Nat → List (List Char) → List (List Char)
  | _, [] => []
  | index, l :: ls =>
    if fs.is_empty || fs.apply (1 + index) then l :: rowSliceAux fs (index + 1) ls
    else rowSliceAux fs (index + 1) ls

/-- `RowSlicer::slice` (rowslc main.rs): read lines, keep those selected,
write them unchanged. -/
def RowSlicer.slice (fs : FilterSet) (input : List Char) : List Char :=
  (rowSliceAux fs 0 (splitLines input)).flatten

/-- Accumulator loop of `splitWhitespace`: `acc` holds the reversed word in
progress. -/
def splitWSAux : List Char → List Char → List (List Char)
  | [], acc => if acc.isEmpty then [] else [acc.reverse]
  | c :: cs, acc =>
    if isWs c then
      if acc.isEmpty then splitWSAux cs []
      else acc.reverse :: splitWSAux cs []
    else splitWSAux cs (c :: acc)

/-- Rust `str::split_whitespace`: the maximal whitespace-free runs of the
line, in order, with empty runs dropped. -/
def splitWhitespace (cs : List Char) : List (List Char) :=
  splitWSAux cs []

/-- Rust `Vec::join` on string slices with a one-character separator. -/
def joinSep (sep : Char) : List (List Char) → List Char
  | [] => []
  | [w] => w
  | w :: x :: xs => w ++ sep :: joinSep sep (x :: xs)

/-- Body of the read loop of `ColSlicer::slice` (colslc main.rs): an empty
set writes the raw line; otherwise the whitespace-split fields are
enumerated from 0, kept iff the set applies at `1 + index`, joined with a
single space and written with a trailing newline (`writeln!`). -/
def colSliceLine (fs : FilterSet) (line : List Char) : List Char :=
  if fs.is_empty then line
  else
    let columns :=
      (((splitWhitespace line).enum.filter (fun ic => fs.apply (1 + ic.1))).map
        (fun ic => ic.2))
    joinSep ' ' columns ++ ['\n']

/-- `ColSlicer::slice` (colslc main.rs): process every line of the input in
order. -/
def ColSlicer.slice (fs : FilterSet) (input : List Char) : List Char :=
  ((splitLines input).map (colSliceLine fs)).flatten

/-- Fields kept by a FilterSet, recursing with an explicit 1-based position
counter; the specification-side reading of "assigns each field an
increasing 1-based index and keeps exactly those whose index is selected". -/
def selectFields (fs : FilterSet) : Nat → List (List Char) → List (List Char)
  | _, [] => []
  | i, w :: ws =>
    if fs.apply i then w :: selectFields fs (i + 1) ws
    else selectFields fs (i + 1) ws

/-- Lines kept by a FilterSet, recursing with an explicit 1-based position
counter; the specification-side reading of the row selector loop. -/
def selectLines (fs : FilterSet) : Nat → List (List Char) → List (List Char)
  | _, [] => []
  | i, l :: ls =>
    if fs.is_empty || fs.apply i then l :: selectLines fs (i + 1) ls
    else selectLines fs (i + 1) ls

/-! Basic facts about the bound parser and the colon splitter. -/

theorem parsePos_sound {cs : List Char} {n : Nat} (h : parsePos cs = some n) :
    cs ≠ [] ∧ (∀ c ∈ cs, isDigit c = true) ∧ 1 ≤ n := by
  unfold parsePos at h
  split at h
  · rename_i hcond
    rw [Bool.and_eq_true, Bool.not_eq_true', List.all_eq_true] at hcond
    split at h
    · rename_i hge
      refine ⟨?_, hcond.2, ?_⟩
      · intro hnil
        rw [hnil] at hcond
        simp at hcond
      · cases h
        exact hge
    · cases h
  · cases h

theorem isDigit_ne_colon {c : Char} (h : isDigit c = true) : c ≠ ':' := by
  intro hc
  subst hc
  exact absurd h (by decide)

theorem parsePos_no_colon {cs : List Char} {n : Nat} (h : parsePos cs = some n) :
    ∀ c ∈ cs, c ≠ ':' :=
  fun c hc => isDigit_ne_colon ((parsePos_sound h).2.1 c hc)

theorem parseBound_of_parsePos {cs : List Char} {n : Nat} (h : parsePos cs = some n) :
    parseBound cs = some (some n) := by
  have hne : cs ≠ [] := (parsePos_sound h).1
  unfold parseBound
  rw [if_neg (by simpa using hne), h]
  rfl

theorem splitColon_ne_nil (cs : List Char) : splitColon cs ≠ [] := by
  cases cs with
  | nil => simp [splitColon]
  | cons c cs =>
    unfold splitColon
    by_cases h : c = ':'
    · simp [h]
    · simp only [h, if_false]
      cases splitColon cs <;> simp

theorem splitColon_no_colon {cs : List Char} (h : ∀ c ∈ cs, c ≠ ':') :
    splitColon cs = [cs] := by
  induction cs with
  | nil => rfl
  | cons c cs ih =>
    have hc : c ≠ ':' := h c (by simp)
    have hrest := ih (fun x hx => h x (by simp [hx]))
    simp [splitColon, hc, hrest]

theorem splitColon_append {a : List Char} (b : List Char) (h : ∀ c ∈ a, c ≠ ':') :
    splitColon (a ++ ':' :: b) = a :: splitColon b := by
  induction a with
  | nil =>
    have hb := splitColon_ne_nil b
    simp [splitColon]
  | cons c a ih =>
    have hc : c ≠ ':' := h c (by simp)
    have hrest := ih (fun x hx => h x (by simp [hx]))
    simp [splitColon, hc, hrest]

theorem length_splitColon (cs : List Char) :
    (splitColon cs).length = cs.count ':' + 1 := by
  induction cs with
  | nil => rfl
  | cons c cs ih =>
    by_cases h : c = ':'
    · subst h
      simp [splitColon, List.count_cons, ih]
    · rcases hs : splitColon cs with _ | ⟨p, ps⟩
      · exact absurd hs (splitColon_ne_nil cs)
      · rw [hs] at ih
        simp only [splitColon, h, if_false, hs, List.length_cons, List.count_cons]
        simp only [List.length_cons] at ih
        simp [h, ih]

theorem mem_splitColon {c : Char} {cs : List Char} (hm : c ∈ cs) (hc : c ≠ ':') :
    ∃ part ∈ splitColon cs, c ∈ part := by
  induction cs with
  | nil => cases hm
  | cons d cs ih =>
    by_cases hd : d = ':'
    · subst hd
      rcases List.mem_cons.mp hm with rfl | hm2
      · exact absurd rfl hc
      · obtain ⟨part, hp, hcp⟩ := ih hm2
        exact ⟨part, by simp [splitColon, hp], hcp⟩
    · rcases hs : splitColon cs with _ | ⟨p, ps⟩
      · exact absurd hs (splitColon_ne_nil cs)
      · rcases List.mem_cons.mp hm with rfl | hm2
        · exact ⟨c :: p, by simp [splitColon, hd, hs], by simp⟩
        · obtain ⟨part, hp, hcp⟩ := ih hm2
          rw [hs] at hp
          rcases List.mem_cons.mp hp with rfl | hp2
          · exact ⟨d :: part, by simp [splitColon, hd, hs], by simp [hcp]⟩
          · exact ⟨part, by simp [splitColon, hd, hs, hp2], hcp⟩

/-! Success and failure shapes of the expression parser. -/

theorem fromChars_single {cs : List Char} {n : Nat} (h : parsePos cs = some n) :
    Filter.fromChars cs = .ok ⟨some n, some n⟩ := by
  unfold Filter.fromChars
  rw [splitColon_no_colon (parsePos_no_colon h)]
  simp [h]

theorem fromChars_range {a b : List Char} {n m : Nat}
    (ha : parsePos a = some n) (hb : parsePos b = some m) (hnm : n ≤ m) :
    Filter.fromChars (a ++ ':' :: b) = .ok ⟨some n, some m⟩ := by
  unfold Filter.fromChars
  rw [splitColon_append b (parsePos_no_colon ha),
    splitColon_no_colon (parsePos_no_colon hb)]
  simp [parseBound_of_parsePos ha, parseBound_of_parsePos hb, Nat.not_lt.mpr hnm]

theorem fromChars_range_inverted {a b : List Char} {n m : Nat}
    (ha : parsePos a = some n) (hb : parsePos b = some m) (hmn : m < n) :
    Filter.fromChars (a ++ ':' :: b) =
      .error (.rangeError (String.mk (a ++ ':' :: b))) := by
  unfold Filter.fromChars
  rw [splitColon_append b (parsePos_no_colon ha),
    splitColon_no_colon (parsePos_no_colon hb)]
  simp [parseBound_of_parsePos ha, parseBound_of_parsePos hb, hmn]

theorem fromChars_left_open {a : List Char} {n : Nat} (ha : parsePos a = some n) :
    Filter.fromChars (a ++ [':']) = .ok ⟨some n, none⟩ := by
  unfold Filter.fromChars
  rw [show a ++ [':'] = a ++ ':' :: [] from rfl,
    splitColon_append [] (parsePos_no_colon ha)]
  simp only [splitColon, parseBound_of_parsePos ha]
  rfl

theorem fromChars_right_open {b : List Char} {m : Nat} (hb : parsePos b = some m) :
    Filter.fromChars (':' :: b) = .ok ⟨none, some m⟩ := by
  unfold Filter.fromChars
  rw [show ':' :: b = [] ++ ':' :: b from rfl, splitColon_append b (by simp),
    splitColon_no_colon (parsePos_no_colon hb)]
  simp only [parseBound_of_parsePos hb]
  rfl

theorem fromChars_error_of_bad_part {cs part : List Char}
    (hmem : part ∈ splitColon cs) (hne : part ≠ []) (hp : parsePos part = none) :
    Filter.fromChars cs = .error (.parseError (String.mk cs)) := by
  have hpb : parseBound part = none := by
    unfold parseBound
    rw [if_neg (by simpa using hne), hp]
    rfl
  unfold Filter.fromChars
  rcases hsc : splitColon cs with _ | ⟨a, rest⟩
  · exact absurd hsc (splitColon_ne_nil cs)
  · rcases rest with _ | ⟨b, rest⟩
    · rw [hsc] at hmem
      have : part = a := by simpa using hmem
      subst this
      simp [hp]
    · rcases rest with _ | ⟨d, rest⟩
      · rw [hsc] at hmem
        rcases (by simpa using hmem : part = a ∨ part = b) with rfl | rfl
        · cases hb2 : parseBound b <;> simp [hpb, hb2]
        · cases ha2 : parseBound a <;> simp [hpb, ha2]
      · rfl

theorem fromChars_error_of_bad_char {cs : List Char} {c : Char}
    (hm : c ∈ cs) (hd : isDigit c = false) (hc : c ≠ ':') :
    Filter.fromChars cs = .error (.parseError (String.mk cs)) := by
  obtain ⟨part, hp, hcp⟩ := mem_splitColon hm hc
  have hne : part ≠ [] := fun h => by
    rw [h] at hcp
    cases hcp
  have hall : part.all isDigit = false := by
    rw [List.all_eq_false]
    exact ⟨c, hcp, by simp [hd]⟩
  have hpp : parsePos part = none := by
    unfold parsePos
    rw [if_neg (by simp [hall])]
  exact fromChars_error_of_bad_part hp hne hpp

theorem fromChars_error_of_two_colons {cs : List Char} (h : 2 ≤ cs.count ':') :
    Filter.fromChars cs = .error (.parseError (String.mk cs)) := by
  have hl : 3 ≤ (splitColon cs).length := by
    rw [length_splitColon]
    omega
  unfold Filter.fromChars
  rcases hsc : splitColon cs with _ | ⟨a, _ | ⟨b, _ | ⟨d, rest⟩⟩⟩ <;>
      rw [hsc] at hl <;>
    first
      | rfl
      | simp at hl

/-! Facts about the range test and the set-level predicate. -/

theorem Filter.apply_eq_true_iff (f : Filter) (p : Nat) :
    f.apply p = true ↔
      (f.lower = none ∨ ∃ l, f.lower = some l ∧ l ≤ p) ∧
      (f.upper = none ∨ ∃ u, f.upper = some u ∧ p ≤ u) := by
  rcases f with ⟨lo, hi⟩
  unfold Filter.apply
  cases lo <;> cases hi <;> simp

theorem FilterSet.apply_eq_any (s : FilterSet) (p : Nat) :
    s.apply p = true ↔ ∃ f ∈ s.filters, f.apply p = true := by
  rw [FilterSet.apply, List.any_eq_true]

/-! Facts about line chunking and the row selector loop. -/

theorem flatten_splitLines (cs : List Char) : (splitLines cs).flatten = cs := by
  induction cs with
  | nil => rfl
  | cons c cs ih =>
    by_cases h : c = '\n'
    · subst h
      simp [splitLines, ih]
    · rcases hs : splitLines cs with _ | ⟨l, ls⟩
      · rw [hs] at ih
        simp only [List.flatten_nil] at ih
        simp [splitLines, h, hs, ih.symm]
      · rw [hs] at ih
        simp only [List.flatten_cons] at ih
        simp [splitLines, h, hs, ih]

theorem rowSliceAux_of_is_empty {fs : FilterSet} (h : fs.is_empty = true) :
    ∀ i ls, rowSliceAux fs i ls = ls := by
  intro i ls
  induction ls generalizing i with
  | nil => rfl
  | cons l ls ih => simp [rowSliceAux, h, ih]

theorem rowSliceAux_eq_enumFrom (fs : FilterSet) :
    ∀ ls i, rowSliceAux fs i ls =
      ((List.enumFrom i ls).filter
        (fun il => fs.is_empty || fs.apply (1 + il.1))).map Prod.snd := by
  intro ls
  induction ls with
  | nil => intro i; rfl
  | cons l ls ih =>
    intro i
    by_cases h : (fs.is_empty || fs.apply (1 + i)) = true
    · simp [rowSliceAux, List.enumFrom, List.filter_cons, h, ih]
    · simp only [rowSliceAux, List.enumFrom, List.filter_cons]
      rw [if_neg (by simpa using h)]
      simp only [h, if_false]
      exact ih (i + 1)

theorem rowSliceAux_sublist (fs : FilterSet) :
    ∀ ls i, List.Sublist (rowSliceAux fs i ls) ls := by
  intro ls
  induction ls with
  | nil => intro i; exact List.Sublist.refl []
  | cons l ls ih =>
    intro i
    unfold rowSliceAux
    by_cases h : (fs.is_empty || fs.apply (1 + i)) = true
    · rw [if_pos h]
      exact (ih (i + 1)).cons₂ l
    · rw [if_neg h]
      exact (ih (i + 1)).cons l

/-- C1: for every FilterSet and 1-based position p, apply(p) is true iff p
falls within at least one contained Filter inclusive range, a single Filter
with optional bounds matching p iff (lower is absent or p >= lower) and
(upper is absent or p <= upper). -/
theorem C1_filterset_apply_iff_some_filter_matches (s : FilterSet) (p : Nat) :
    s.apply p = true ↔
      ∃ f ∈ s.filters,
        (f.lower = none ∨ ∃ l, f.lower = some l ∧ l ≤ p) ∧
        (f.upper = none ∨ ∃ u, f.upper = some u ∧ p ≤ u) := by
  rw [FilterSet.apply_eq_any]
  exact exists_congr fun f =>
    and_congr_right fun _ => Filter.apply_eq_true_iff f p

/-- C2: every valid filter expression denotes exactly its set of positions:
a numeral N parses to a filter matching exactly N; N:M with N <= M matches
exactly the positions p with N <= p <= M; N: matches exactly the positions
>= N; :M matches exactly the positions of [1, M]; the bare colon matches
every position >= 1. -/
theorem C2_parsed_filters_denote_their_ranges (s t : String) (n m : Nat)
    (hs : parsePos s.data = some n) (ht : parsePos t.data = some m) :
    (Filter.fromStr s = .ok ⟨some n, some n⟩ ∧
      ∀ p, Filter.apply ⟨some n, some n⟩ p = true ↔ p = n) ∧
    ((n ≤ m → Filter.fromStr (s ++ ":" ++ t) = .ok ⟨some n, some m⟩) ∧
      ∀ p, Filter.apply ⟨some n, some m⟩ p = true ↔ n ≤ p ∧ p ≤ m) ∧
    (Filter.fromStr (s ++ ":") = .ok ⟨some n, none⟩ ∧
      ∀ p, Filter.apply ⟨some n, none⟩ p = true ↔ n ≤ p) ∧
    (Filter.fromStr (":" ++ t) = .ok ⟨none, some m⟩ ∧
      ∀ p, 1 ≤ p → (Filter.apply ⟨none, some m⟩ p = true ↔ 1 ≤ p ∧ p ≤ m)) ∧
    (Filter.fromStr ":" = .ok ⟨none, none⟩ ∧
      ∀ p, 1 ≤ p → Filter.apply ⟨none, none⟩ p = true) := by
  have hdata : (s ++ ":" ++ t).data = s.data ++ ':' :: t.data := by
    rw [String.data_append, String.data_append]
    simp [String.data]
  have hdatal : (s ++ ":").data = s.data ++ [':'] := by
    rw [String.data_append]
  have hdatar : (":" ++ t).data = ':' :: t.data := by
    rw [String.data_append]
    rfl
  refine ⟨⟨?_, ?_⟩, ⟨fun hnm => ?_, ?_⟩, ⟨?_, ?_⟩, ⟨?_, ?_⟩, ?_, ?_⟩
  · rw [Filter.fromStr]
    exact fromChars_single hs
  · intro p
    unfold Filter.apply
    simp
    omega
  · rw [Filter.fromStr, hdata]
    exact fromChars_range hs ht hnm
  · intro p
    unfold Filter.apply
    simp
  · rw [Filter.fromStr, hdatal]
    exact fromChars_left_open hs
  · intro p
    unfold Filter.apply
    simp
  · rw [Filter.fromStr, hdatar]
    exact fromChars_right_open ht
  · intro p hp
    unfold Filter.apply
    simp [hp]
  · rfl
  · intro p hp
    rfl

/-- C2 witness: the concrete expressions built from the numerals 2 and 5
parse and match as stated. -/
theorem C2_parsed_filters_denote_their_ranges_witness :
    Filter.fromStr "2" = .ok ⟨some 2, some 2⟩ ∧
      Filter.apply ⟨some 2, some 2⟩ 2 = true := by
  have h := C2_parsed_filters_denote_their_ranges "2" "5" 2 5 rfl rfl
  exact ⟨h.1.1, (h.1.2 2).mpr rfl⟩

/-- C3: construction fails, with an error carrying the offending input, for
every invalid expression: the empty string, the string 0, negative numbers,
non-numeric text, strings with more than one colon, and any well-formed N:M
with N > M (inverted ranges are rejected, never silently normalized). -/
theorem C3_invalid_expressions_fail :
    Filter.fromStr "" = .error (.parseError "") ∧
    Filter.fromStr "0" = .error (.parseError "0") ∧
    (∀ s : String, s.data.head? = some '-' →
      Filter.fromStr s = .error (.parseError s)) ∧
    (∀ s : String, (∃ c ∈ s.data, isDigit c = false ∧ c ≠ ':') →
      Filter.fromStr s = .error (.parseError s)) ∧
    (∀ s : String, 2 ≤ s.data.count ':' →
      Filter.fromStr s = .error (.parseError s)) ∧
    (∀ s t : String, ∀ n m : Nat, parsePos s.data = some n →
      parsePos t.data = some m → m < n →
      Filter.fromStr (s ++ ":" ++ t) = .error (.rangeError (s ++ ":" ++ t))) := by
  have hbad : ∀ s : String, (∃ c ∈ s.data, isDigit c = false ∧ c ≠ ':') →
      Filter.fromStr s = .error (.parseError s) := by
    rintro ⟨cs⟩ ⟨c, hm, hd, hc⟩
    exact fromChars_error_of_bad_char hm hd hc
  refine ⟨rfl, rfl, ?_, hbad, ?_, ?_⟩
  · intro s hh
    rcases hdata : s.data with _ | ⟨c, rest⟩
    · rw [hdata] at hh
      cases hh
    · rw [hdata] at hh
      have hc : c = '-' := by simpa using hh
      subst hc
      exact hbad s ⟨'-', by rw [hdata]; simp, by decide, by decide⟩
  · rintro ⟨cs⟩ hcount
    exact fromChars_error_of_two_colons hcount
  · intro s t n m hsn htm hmn
    have hdata : (s ++ ":" ++ t).data = s.data ++ ':' :: t.data := by
      rw [String.data_append, String.data_append]
      simp [String.data]
    rw [Filter.fromStr, hdata]
    have := fromChars_range_inverted hsn htm hmn
    rw [this]
    rw [show String.mk (s.data ++ ':' :: t.data) = s ++ ":" ++ t from by
      rw [← hdata]]

/-- C4: the union semantics of a FilterSet: it matches p iff at least one
of the supplied Filters matches p, and neither order nor duplicated or
overlapping filters change the result of apply at any position. -/
theorem C4_union_order_and_duplicates (l : List Filter) (p : Nat) :
    ((FilterSet.new l).apply p = true ↔ ∃ f ∈ l, f.apply p = true) ∧
    (∀ l' : List Filter, l.Perm l' →
      (FilterSet.new l).apply p = (FilterSet.new l').apply p) ∧
    (∀ f ∈ l, (FilterSet.new (f :: l)).apply p = (FilterSet.new l).apply p) := by
  refine ⟨List.any_eq_true, ?_, ?_⟩
  · intro l' hperm
    rw [Bool.eq_iff_iff, FilterSet.apply_eq_any, FilterSet.apply_eq_any]
    exact ⟨fun ⟨f, hf, ha⟩ => ⟨f, hperm.mem_iff.mp hf, ha⟩,
      fun ⟨f, hf, ha⟩ => ⟨f, hperm.mem_iff.mpr hf, ha⟩⟩
  · intro f hf
    show (f :: l).any (fun g => g.apply p) = l.any (fun g => g.apply p)
    rw [List.any_cons]
    cases hfa : f.apply p
    · rw [Bool.false_or]
    · rw [Bool.true_or, Eq.comm, List.any_eq_true]
      exact ⟨f, hf, hfa⟩

/-- C5: is_empty is true iff the set was built from zero Filters; an empty
FilterSet applies to no position at all; the select-all behaviour of both
tools on an empty set comes from the callers checking is_empty first and
bypassing apply, which makes them echo the whole input. -/
theorem C5_empty_set_convention :
    (∀ l : List Filter, (FilterSet.new l).is_empty = true ↔ l = []) ∧
    (∀ p : Nat, (FilterSet.new []).apply p = false) ∧
    (∀ input : List Char, RowSlicer.slice (FilterSet.new []) input = input) ∧
    (∀ input : List Char, ColSlicer.slice (FilterSet.new []) input = input) := by
  refine ⟨?_, fun p => rfl, ?_, ?_⟩
  · intro l
    exact List.isEmpty_iff
  · intro input
    rw [RowSlicer.slice, @rowSliceAux_of_is_empty (FilterSet.new []) rfl,
      flatten_splitLines]
  · intro input
    have hline : ∀ line, colSliceLine (FilterSet.new []) line = line := by
      intro line
      rw [colSliceLine,
        if_pos (show (FilterSet.new []).is_empty = true from rfl)]
    rw [ColSlicer.slice,
      List.map_congr_left fun l _ => hline l, List.map_id', flatten_splitLines]

/-! Facts about whitespace splitting. -/

theorem splitWSAux_ws_cons {c : Char} (h : isWs c = true) (cs : List Char) :
    splitWSAux (c :: cs) [] = splitWSAux cs [] := by
  simp [splitWSAux, h]

theorem splitWSAux_word {w : List Char} (hw : ∀ c ∈ w, isWs c = false) :
    ∀ rest acc, splitWSAux (w ++ rest) acc = splitWSAux rest (w.reverse ++ acc) := by
  induction w with
  | nil =>
    intro rest acc
    simp
  | cons c w ih =>
    intro rest acc
    have hc : isWs c = false := hw c (by simp)
    rw [List.cons_append, show splitWSAux (c :: (w ++ rest)) acc =
        splitWSAux (w ++ rest) (c :: acc) from by simp [splitWSAux, hc],
      ih (fun x hx => hw x (by simp [hx])) rest (c :: acc)]
    simp

theorem splitWSAux_acc_nil {acc : List Char} (hacc : acc ≠ []) :
    splitWSAux [] acc = [acc.reverse] := by
  rw [splitWSAux, if_neg (by simpa using hacc)]

theorem splitWSAux_acc_ws {acc : List Char} {d : Char} (hacc : acc ≠ [])
    (hd : isWs d = true) (rest : List Char) :
    splitWSAux (d :: rest) acc = acc.reverse :: splitWSAux rest [] := by
  rw [splitWSAux, if_pos hd, if_neg (by simpa using hacc)]

theorem splitWhitespace_ws_left {run : List Char}
    (h : ∀ c ∈ run, isWs c = true) :
    ∀ rest, splitWhitespace (run ++ rest) = splitWhitespace rest := by
  induction run with
  | nil => intro rest; rfl
  | cons c run ih =>
    intro rest
    rw [splitWhitespace, List.cons_append,
      splitWSAux_ws_cons (h c (by simp))]
    exact ih (fun x hx => h x (by simp [hx])) rest

theorem splitWhitespace_all_ws {cs : List Char} (h : ∀ c ∈ cs, isWs c = true) :
    splitWhitespace cs = [] := by
  have hx := splitWhitespace_ws_left h []
  rw [List.append_nil] at hx
  exact hx

theorem splitWhitespace_word_append {w : List Char}
    (hw : ∀ c ∈ w, isWs c = false) (hne : w ≠ []) (rest : List Char)
    (hrest : rest = [] ∨ ∃ d rest2, rest = d :: rest2 ∧ isWs d = true) :
    splitWhitespace (w ++ rest) = w :: splitWhitespace rest := by
  have hrev : w.reverse ≠ [] := by simpa using hne
  rw [splitWhitespace, splitWSAux_word hw rest [], List.append_nil]
  rcases hrest with rfl | ⟨d, rest2, rfl, hd⟩
  · rw [splitWSAux_acc_nil hrev, List.reverse_reverse]
    rfl
  · rw [splitWSAux_acc_ws hrev hd, List.reverse_reverse, splitWhitespace,
      splitWSAux_ws_cons hd]

theorem splitWSAux_fields :
    ∀ cs acc, (∀ c ∈ acc, isWs c = false) →
      ∀ w ∈ splitWSAux cs acc, w ≠ [] ∧ ∀ c ∈ w, isWs c = false := by
  intro cs
  induction cs with
  | nil =>
    intro acc hacc w hw
    rcases hae : acc.isEmpty with _ | _
    · rw [splitWSAux, hae, if_neg (by simp)] at hw
      have hw2 : w = acc.reverse := by simpa using hw
      subst hw2
      have hane : acc ≠ [] := by simpa using hae
      exact ⟨by simpa using hane, fun c hc => hacc c (by simpa using hc)⟩
    · rw [splitWSAux, hae, if_pos rfl] at hw
      cases hw
  | cons c cs ih =>
    intro acc hacc w hw
    rcases hc : isWs c with _ | _
    · rw [splitWSAux, hc] at hw
      simp only [Bool.false_eq_true, if_false] at hw
      exact ih (c :: acc)
        (fun x hx => by
          rcases List.mem_cons.mp hx with rfl | hx2
          · exact hc
          · exact hacc x hx2) w hw
    · rw [splitWSAux, hc] at hw
      simp only [if_true] at hw
      rcases hae : acc.isEmpty with _ | _
      · rw [hae] at hw
        simp only [Bool.false_eq_true, if_false] at hw
        rcases List.mem_cons.mp hw with rfl | hw2
        · have hane : acc ≠ [] := by simpa using hae
          exact ⟨by simpa using hane, fun x hx => hacc x (by simpa using hx)⟩
        · exact ih [] (by simp) w hw2
      · rw [hae] at hw
        simp only [if_true] at hw
        exact ih [] (by simp) w hw

theorem splitWhitespace_fields {cs : List Char} :
    ∀ w ∈ splitWhitespace cs, w ≠ [] ∧ ∀ c ∈ w, isWs c = false :=
  splitWSAux_fields cs [] (by simp)

/-! Facts about field selection in the column selector. -/

theorem selectFields_eq_enumFrom (fs : FilterSet) :
    ∀ ws i, ((List.enumFrom i ws).filter
        (fun ic => fs.apply (1 + ic.1))).map (fun ic => ic.2)
      = selectFields fs (1 + i) ws := by
  intro ws
  induction ws with
  | nil => intro i; rfl
  | cons w ws ih =>
    intro i
    rw [List.enumFrom, List.filter_cons]
    by_cases h : fs.apply (1 + i) = true
    · rw [if_pos (by simpa using h), List.map_cons, ih (i + 1),
        selectFields, if_pos h, Nat.add_assoc]
    · rw [if_neg (by simpa using h), ih (i + 1),
        selectFields, if_neg h, Nat.add_assoc]

theorem colSliceLine_of_not_empty {fs : FilterSet} (h : fs.is_empty = false)
    (line : List Char) :
    colSliceLine fs line =
      joinSep ' ' (selectFields fs 1 (splitWhitespace line)) ++ ['\n'] := by
  simp only [colSliceLine, h, Bool.false_eq_true, if_false]
  rw [List.enum_eq_enumFrom, selectFields_eq_enumFrom]

theorem selectFields_subset {fs : FilterSet} :
    ∀ ws i w, w ∈ selectFields fs i ws → w ∈ ws := by
  intro ws
  induction ws with
  | nil => intro i w hw; cases hw
  | cons x ws ih =>
    intro i w hw
    rw [selectFields] at hw
    by_cases h : fs.apply i = true
    · rw [if_pos h] at hw
      rcases List.mem_cons.mp hw with rfl | hw2
      · simp
      · simp [ih (i + 1) w hw2]
    · rw [if_neg h] at hw
      simp [ih (i + 1) w hw]

theorem selectFields_of_all {fs : FilterSet} (h : ∀ p, fs.apply p = true) :
    ∀ ws i, selectFields fs i ws = ws := by
  intro ws
  induction ws with
  | nil => intro i; rfl
  | cons w ws ih => intro i; rw [selectFields, if_pos (h i), ih (i + 1)]

/-! Newline counting in the column selector output. -/

theorem nl_not_mem_joinSep {cols : List (List Char)}
    (h : ∀ w ∈ cols, ∀ c ∈ w, isWs c = false) :
    ('\n' : Char) ∉ joinSep ' ' cols := by
  induction cols with
  | nil => simp [joinSep]
  | cons w ws ih =>
    have hwnl : ('\n' : Char) ∉ w := fun hm => by
      have := h w (by simp) '\n' hm
      exact absurd this (by decide)
    rcases ws with _ | ⟨x, xs⟩
    · simpa [joinSep] using hwnl
    · rw [joinSep]
      intro hm
      rcases List.mem_append.mp hm with hm1 | hm2
      · exact hwnl hm1
      · rcases List.mem_cons.mp hm2 with he | hm3
        · cases he
        · exact ih (fun v hv => h v (by simp [hv])) hm3

theorem colSliceLine_fields_clean {fs : FilterSet} (line : List Char) :
    ∀ w ∈ selectFields fs 1 (splitWhitespace line),
      w ≠ [] ∧ ∀ c ∈ w, isWs c = false :=
  fun w hw =>
    splitWhitespace_fields w (selectFields_subset (splitWhitespace line) 1 w hw)

theorem count_nl_colSliceLine {fs : FilterSet} (h : fs.is_empty = false)
    (line : List Char) : List.count '\n' (colSliceLine fs line) = 1 := by
  rw [colSliceLine_of_not_empty h, List.count_append,
    List.count_eq_zero.mpr (nl_not_mem_joinSep
      (fun w hw => (colSliceLine_fields_clean line w hw).2))]
  rfl

theorem getLast_colSliceLine {fs : FilterSet} (h : fs.is_empty = false)
    (line : List Char) : (colSliceLine fs line).getLast? = some '\n' := by
  rw [colSliceLine_of_not_empty h, List.getLast?_concat]

theorem colSliceLine_no_fields {fs : FilterSet} (h : fs.is_empty = false)
    {line : List Char} (hsel : selectFields fs 1 (splitWhitespace line) = []) :
    colSliceLine fs line = ['\n'] := by
  rw [colSliceLine_of_not_empty h, hsel]
  rfl

/-- C6: the row selector reads lines in order, assigns each an increasing
1-based index i, and emits exactly the lines with the set empty or apply(i)
true, each unmodified with its terminator; the lines partition the input. -/
theorem C6_row_selector_emits_selected_lines (fs : FilterSet)
    (input : List Char) :
    RowSlicer.slice fs input =
      (((splitLines input).enum.filter
        (fun il => fs.is_empty || fs.apply (1 + il.1))).map Prod.snd).flatten ∧
    (splitLines input).flatten = input := by
  refine ⟨?_, flatten_splitLines input⟩
  rw [RowSlicer.slice, rowSliceAux_eq_enumFrom, List.enum_eq_enumFrom]

/-- C7: the column selector processes each line in order; an empty set
echoes the raw line with its terminator, and a non-empty set splits the
line on whitespace, keeps exactly the fields whose 1-based index satisfies
apply, and emits them joined with single spaces plus a newline. -/
theorem C7_column_selector_per_line (fs : FilterSet) (input : List Char) :
    ColSlicer.slice fs input =
      ((splitLines input).map (colSliceLine fs)).flatten ∧
    (fs.is_empty = true → ∀ line, colSliceLine fs line = line) ∧
    (fs.is_empty = false → ∀ line,
      colSliceLine fs line =
        joinSep ' ' (selectFields fs 1 (splitWhitespace line)) ++ ['\n']) ∧
    (splitLines input).flatten = input := by
  refine ⟨rfl, ?_, ?_, flatten_splitLines input⟩
  · intro h line
    rw [colSliceLine, if_pos h]
  · intro h line
    exact colSliceLine_of_not_empty h line

/-- C8: with a non-empty set the column selector never preserves the
original whitespace: every emitted field is nonempty and whitespace-free,
interior runs of spaces or tabs collapse to one separating space, leading
and trailing whitespace is dropped, and even the full-range filter that
keeps every field can change the line, as on the concrete line a-space-tab-
space-b. -/
theorem C8_whitespace_collapsed_not_preserved :
    (∀ fs : FilterSet, ∀ line, fs.is_empty = false →
      colSliceLine fs line =
        joinSep ' ' (selectFields fs 1 (splitWhitespace line)) ++ ['\n'] ∧
      ∀ w ∈ selectFields fs 1 (splitWhitespace line),
        w ≠ [] ∧ ∀ c ∈ w, isWs c = false) ∧
    (∀ f1 run f2 : List Char, f1 ≠ [] → f2 ≠ [] →
      (∀ c ∈ f1, isWs c = false) → (∀ c ∈ f2, isWs c = false) →
      run ≠ [] → (∀ c ∈ run, c = ' ' ∨ c = '\t') →
      splitWhitespace (f1 ++ run ++ f2) = [f1, f2] ∧
      colSliceLine (FilterSet.new [⟨none, none⟩]) (f1 ++ run ++ f2) =
        (f1 ++ ' ' :: f2) ++ ['\n']) ∧
    (∀ run1 f run2 : List Char, f ≠ [] → (∀ c ∈ f, isWs c = false) →
      (∀ c ∈ run1, c = ' ' ∨ c = '\t') → (∀ c ∈ run2, c = ' ' ∨ c = '\t') →
      splitWhitespace (run1 ++ f ++ run2) = [f] ∧
      colSliceLine (FilterSet.new [⟨none, none⟩]) (run1 ++ f ++ run2) =
        f ++ ['\n']) ∧
    (selectFields (FilterSet.new [⟨none, none⟩]) 1
        (splitWhitespace ("a \t b\n".data)) =
      splitWhitespace ("a \t b\n".data) ∧
     colSliceLine (FilterSet.new [⟨none, none⟩]) ("a \t b\n".data) =
        "a b\n".data ∧
     colSliceLine (FilterSet.new [⟨none, none⟩]) ("a \t b\n".data) ≠
        "a \t b\n".data) := by
  have happly : ∀ p, (FilterSet.new [⟨none, none⟩]).apply p = true :=
    fun p => rfl
  have hne : (FilterSet.new [⟨none, none⟩]).is_empty = false := rfl
  have hws : ∀ run : List Char, (∀ c ∈ run, c = ' ' ∨ c = '\t') →
      ∀ c ∈ run, isWs c = true := by
    intro run h c hc
    rcases h c hc with rfl | rfl <;> decide
  have hword : ∀ w : List Char, (∀ c ∈ w, isWs c = false) → w ≠ [] →
      splitWhitespace w = [w] := by
    intro w hw hwne
    have hx := splitWhitespace_word_append hw hwne [] (Or.inl rfl)
    rw [List.append_nil] at hx
    exact hx
  refine ⟨?_, ?_, ?_, ?_, ?_, ?_⟩
  · intro fs line h
    exact ⟨colSliceLine_of_not_empty h line, colSliceLine_fields_clean line⟩
  · intro f1 run f2 h1 h2 hf1 hf2 hrne hrun
    obtain ⟨d, run', hd⟩ := List.exists_cons_of_ne_nil hrne
    have hdws : isWs d = true := hws run hrun d (by rw [hd]; simp)
    have hsplit : splitWhitespace (f1 ++ run ++ f2) = [f1, f2] := by
      rw [List.append_assoc,
        splitWhitespace_word_append hf1 h1 (run ++ f2)
          (Or.inr ⟨d, run' ++ f2, by rw [hd, List.cons_append], hdws⟩),
        splitWhitespace_ws_left (hws run hrun) f2, hword f2 hf2 h2]
    refine ⟨hsplit, ?_⟩
    rw [colSliceLine_of_not_empty hne, hsplit, selectFields_of_all happly]
    rfl
  · intro run1 f run2 hfne hf hr1 hr2
    have hsplit : splitWhitespace (run1 ++ f ++ run2) = [f] := by
      have hrest : run2 = [] ∨ ∃ d rest2, run2 = d :: rest2 ∧ isWs d = true := by
        rcases run2 with _ | ⟨d, rest2⟩
        · exact Or.inl rfl
        · exact Or.inr ⟨d, rest2, rfl, hws _ hr2 d (by simp)⟩
      rw [List.append_assoc, splitWhitespace_ws_left (hws run1 hr1) (f ++ run2),
        splitWhitespace_word_append hf hfne run2 hrest,
        splitWhitespace_all_ws (hws run2 hr2)]
    refine ⟨hsplit, ?_⟩
    rw [colSliceLine_of_not_empty hne, hsplit, selectFields_of_all happly]
    rfl
  · rw [selectFields_of_all happly]
  · rfl
  · decide

/-- C9: with a non-empty set the column selector emits exactly one
newline-terminated output line per input line: the newline count of the
output equals the number of input lines, every per-line output ends in a
newline even when the input line had no terminator, and a line with no
selected field (in particular an all-whitespace line) yields the empty
line. -/
theorem C9_one_output_line_per_input_line (fs : FilterSet)
    (h : fs.is_empty = false) :
    (∀ input, List.count '\n' (ColSlicer.slice fs input) =
      (splitLines input).length) ∧
    (∀ line, List.count '\n' (colSliceLine fs line) = 1) ∧
    (∀ line, (colSliceLine fs line).getLast? = some '\n') ∧
    (∀ line, selectFields fs 1 (splitWhitespace line) = [] →
      colSliceLine fs line = ['\n']) ∧
    (∀ line : List Char, (∀ c ∈ line, isWs c = true) →
      colSliceLine fs line = ['\n']) := by
  refine ⟨?_, count_nl_colSliceLine h, getLast_colSliceLine h,
    fun line => colSliceLine_no_fields h, ?_⟩
  · intro input
    rw [ColSlicer.slice]
    induction splitLines input with
    | nil => rfl
    | cons l ls ih =>
      rw [List.map_cons, List.flatten_cons, List.count_append, ih,
        count_nl_colSliceLine h, List.length_cons, Nat.add_comm]
  · intro line hline
    exact colSliceLine_no_fields h
      (by rw [splitWhitespace_all_ws hline]; rfl)

/-- C9 witness: a two-line input whose second line has no terminator and no
selected second field still produces two newline-terminated lines. -/
theorem C9_one_output_line_per_input_line_witness :
    List.count '\n'
      (ColSlicer.slice (FilterSet.new [⟨some 1, some 1⟩]) ("a b\nc".data)) =
      2 := by
  have h := (C9_one_output_line_per_input_line
    (FilterSet.new [⟨some 1, some 1⟩]) rfl).1 ("a b\nc".data)
  rw [h]
  rfl

/-- C10: for every input and every FilterSet the row selector output is the
concatenation of a subsequence of the input lines: each line appears at
most once, in input order, and nothing else is emitted. -/
theorem C10_row_output_is_subsequence (fs : FilterSet) (input : List Char) :
    ∃ kept : List (List Char),
      RowSlicer.slice fs input = kept.flatten ∧
      List.Sublist kept (splitLines input) :=
  ⟨rowSliceAux fs 0 (splitLines input), rfl,
    rowSliceAux_sublist fs (splitLines input) 0⟩

end Slice
